import Mathlib

/-
Verification of the damage-game hand/table engine
(src/damage_game/simulator.py, src/damage_game/models.py).

Python floats are modelled as rationals (all constants in the engine are
exact decimal literals), Python ints as `Int` (or `ℕ` where the source
values are provably non-negative, e.g. card ranks), Python dicts keyed by
player id as functions `String → _`, and provider responses as oracle
parameters.  Line numbers in doc comments refer to simulator.py unless
stated otherwise.
-/

namespace DamageGame

/- ======================================================================
   DEFINITIONS
   ====================================================================== -/

/-- Embeds `clampf` (simulator.py 1602-1603): `max(lo, min(hi, value))`. -/
def clampf (value lo hi : ℚ) : ℚ := max lo (min hi value)

/-- The five tracked emotions of `models.EmotionState` / `normalize_emotion`. -/
inductive Emotion
  | fear
  | anger
  | shame
  | confidence
  | tilt
deriving DecidableEq

/-- Emotional state of a player (`models.EmotionState`): five bounded floats. -/
structure EmotionState where
  fear : ℚ
  anger : ℚ
  shame : ℚ
  confidence : ℚ
  tilt : ℚ
deriving DecidableEq

/-- Field lookup on `EmotionState` by emotion name. -/
def EmotionState.get (e : EmotionState) : Emotion → ℚ
  | .fear => e.fear
  | .anger => e.anger
  | .shame => e.shame
  | .confidence => e.confidence
  | .tilt => e.tilt

/-- The all-zero emotional state (`models.EmotionState` default values). -/
def EmotionState.zero : EmotionState := ⟨0, 0, 0, 0, 0⟩

/-- Embeds `DamageSimulator._apply_single_emotion_delta` (717-728): add a delta to the
named emotion, clamped into `[-1, 1]`; all other emotions untouched. -/
def applySingleEmotionDelta (target : EmotionState) (emotion : Emotion) (delta : ℚ) :
    EmotionState :=
  match emotion with
  | .fear => { target with fear := clampf (target.fear + delta) (-1) 1 }
  | .anger => { target with anger := clampf (target.anger + delta) (-1) 1 }
  | .shame => { target with shame := clampf (target.shame + delta) (-1) 1 }
  | .confidence => { target with confidence := clampf (target.confidence + delta) (-1) 1 }
  | .tilt => { target with tilt := clampf (target.tilt + delta) (-1) 1 }

/-- Per-hand affect bookkeeping of one player: the `hand_emotion_shift` dict
(read with `.get(emotion, 0.0)`) together with the live emotion values. -/
structure AffectState where
  hand_emotion_shift : Emotion → ℚ
  emotions : EmotionState

/-- Embeds `DamageSimulator._cap_hand_emotion_delta` (708-715): clip `delta` against the
remaining per-hand headroom `[-cap - used, cap - used]` and accumulate the applied
amount into the shift map.  Returns the clipped delta and the updated state. -/
def capHandEmotionDelta (target : AffectState) (emotion : Emotion) (delta cap : ℚ) :
    ℚ × AffectState :=
  let used := target.hand_emotion_shift emotion
  let capped := clampf delta (-cap - used) (cap - used)
  (capped,
    { target with
        hand_emotion_shift := fun e =>
          if e = emotion then used + capped else target.hand_emotion_shift e })

/-- One affect resolution applied to a target.  Every capped delta source in the
simulator — affect-phase team attack (398-399), unpaired direct assist (352-353),
self-regulation (250-255), off-turn regulation (823-826) and chatter evaluation
(559-560, 879-880) — clips its raw delta through `_cap_hand_emotion_delta` with
cap `0.6` and then applies the result with `_apply_single_emotion_delta`. -/
def resolveAffectDelta (target : AffectState) (emotion : Emotion) (delta : ℚ) : AffectState :=
  let r := capHandEmotionDelta target emotion delta 0.6
  { r.2 with emotions := applySingleEmotionDelta r.2.emotions emotion r.1 }

/-- Fold a hand's sequence of affect resolutions over a player's affect state. -/
def applyAffectSeq (st : AffectState) (events : List (Emotion × ℚ)) : AffectState :=
  events.foldl (fun s ev => resolveAffectDelta s ev.1 ev.2) st

/-- Invariant of the affect state: per-hand shift within `±0.6`, emotions in `[-1,1]`. -/
def AffectInv (st : AffectState) : Prop :=
  (∀ e, |st.hand_emotion_shift e| ≤ 0.6) ∧
    ∀ e, -1 ≤ st.emotions.get e ∧ st.emotions.get e ≤ 1

/-- Embeds `DamageSimulator._affect_power` (703-706): contributor power
`0.45*skill_affect + 0.35*will + 0.20*spend - 0.25*stress`, floored at 0. -/
def affect_power (skill_affect will stress spend : ℚ) : ℚ :=
  max 0 (0.45 * skill_affect + 0.35 * will + 0.20 * spend - 0.25 * stress)

/-- A contributor to an affect-phase attack: the stats `_affect_power` reads together
with the focus the contributor spent. -/
structure Contributor where
  skill_affect : ℚ
  will : ℚ
  stress : ℚ
  spend : ℚ

/-- Power of one contributor (`_affect_power(actor, spend)`). -/
def Contributor.power (c : Contributor) : ℚ :=
  affect_power c.skill_affect c.will c.stress c.spend

/-- Team power of a resolved affect-phase attack (simulator.py 382-389):
`lead_power + 0.6 * assist_power`, then `min(team_power, 2.0 * max(1.0, lead_power))`. -/
def attackTeamPower (lead : Contributor) (assistants : List Contributor) : ℚ :=
  min (lead.power + 0.6 * (assistants.map Contributor.power).sum) (2 * max 1 lead.power)

/-- The six emotional intents of `models.EmotionalIntent` an attack plan can name. -/
inductive EmotionalIntent
  | fear
  | anger
  | shame
  | tilt
  | overconfidence
  | paranoia
deriving DecidableEq

/-- Embeds `DamageSimulator._apply_affective_effects` (1294-1312): the fixed-size
emotional nudge a raise-attack applies directly to the target's emotions, bounded
only by `min(1.0, ...)` / `max(-1.0, ...)`, not by the per-hand cap. -/
def applyAffectiveEffects (e : EmotionState) (emotional_intent : EmotionalIntent) :
    EmotionState :=
  match emotional_intent with
  | .fear =>
      { e with fear := min 1 (e.fear + 0.2), confidence := max (-1) (e.confidence - 0.1) }
  | .anger =>
      { e with anger := min 1 (e.anger + 0.2), tilt := min 1 (e.tilt + 0.1) }
  | .shame =>
      { e with shame := min 1 (e.shame + 0.2), confidence := max (-1) (e.confidence - 0.1) }
  | .tilt =>
      { e with tilt := min 1 (e.tilt + 0.25) }
  | .overconfidence =>
      { e with confidence := min 1 (e.confidence + 0.2), tilt := min 1 (e.tilt + 0.1) }
  | .paranoia =>
      { e with fear := min 1 (e.fear + 0.15), tilt := min 1 (e.tilt + 0.15) }

/-- Modelled from the amended C9 claim: the primary emotion each intent bumps. -/
def intentPrimaryEmotion : EmotionalIntent → Emotion
  | .fear => .fear
  | .anger => .anger
  | .shame => .shame
  | .tilt => .tilt
  | .overconfidence => .confidence
  | .paranoia => .fear

/-- Modelled from the amended C9 claim: the size of the primary bump for each intent. -/
def intentPrimaryDelta : EmotionalIntent → ℚ
  | .fear => 0.2
  | .anger => 0.2
  | .shame => 0.2
  | .tilt => 0.25
  | .overconfidence => 0.2
  | .paranoia => 0.15

/-- Modelled from the amended C9 claim: the fixed secondary bump of each intent —
confidence −0.1 for fear/shame, tilt +0.1 for anger/overconfidence, tilt +0.15 for
paranoia, none for the tilt intent. -/
def intentSideEffect : EmotionalIntent → Option (Emotion × ℚ)
  | .fear => some (.confidence, -0.1)
  | .anger => some (.tilt, 0.1)
  | .shame => some (.confidence, -0.1)
  | .tilt => none
  | .overconfidence => some (.tilt, 0.1)
  | .paranoia => some (.tilt, 0.15)

/-- A card: rank character and suit character, e.g. `('A', 'S')` for the string `"AS"`. -/
abbrev Card := Char × Char

/-- The rank alphabet `RANKS = "23456789TJQKA"` (simulator.py 16). -/
def RANKS : List Char := ['2', '3', '4', '5', '6', '7', '8', '9', 'T', 'J', 'Q', 'K', 'A']

/-- Rank value of a card: `RANKS.index(c[0]) + 2` (simulator.py 1540). -/
def rankOfCard (c : Card) : ℕ := RANKS.indexOf c.1 + 2

/-- Python `sorted(xs, reverse=True)` on naturals: sort ascending, then reverse. -/
def sortDescNat (l : List ℕ) : List ℕ := (List.insertionSort (fun a b => a ≤ b) l).reverse

/-- Lexicographic order on `(count, rank)` pairs, exactly how Python compares the
2-tuples in `groups = sorted(..., reverse=True)`. -/
def pairLe (a b : ℕ × ℕ) : Prop := a.1 < b.1 ∨ (a.1 = b.1 ∧ a.2 ≤ b.2)

instance : DecidableRel pairLe := fun a b => by
  unfold pairLe; infer_instance

instance : IsTotal (ℕ × ℕ) pairLe := ⟨fun a b => by unfold pairLe; omega⟩

instance : IsTrans (ℕ × ℕ) pairLe := ⟨fun a b c h1 h2 => by
  unfold pairLe at h1 h2 ⊢; omega⟩

instance : IsAntisymm (ℕ × ℕ) pairLe := ⟨fun a b h1 h2 => by
  unfold pairLe at h1 h2
  have hfst : a.1 = b.1 ∧ a.2 = b.2 := by omega
  exact Prod.ext_iff.mpr hfst⟩

/-- Python `sorted(pairs, reverse=True)` on `(count, rank)` pairs. -/
def sortDescPairs (l : List (ℕ × ℕ)) : List (ℕ × ℕ) := (List.insertionSort pairLe l).reverse

/-- Core of `evaluate_hand` (simulator.py 1542-1579) once its inputs are canonicalised:
`ranks0` is `sorted((RANKS.index(c[0]) + 2 for c in cards), reverse=True)` and
`suitKinds` is `len(set(suits))`.  `groups` pairs each distinct rank with its
multiplicity, sorted descending; the ace-low straight rewrites the tiebreak list to
`[5,4,3,2,1]`. -/
def evalRanksSuits (ranks0 : List ℕ) (suitKinds : ℕ) : ℕ × List ℕ × String :=
  let groups := sortDescPairs ((ranks0.dedup).map (fun r => (ranks0.count r, r)))
  let is_flush := suitKinds == 1
  let uniq := sortDescNat ranks0.dedup
  let straightRun := uniq.length == 5 && (uniq.headD 0 - uniq.getLastD 0 == 4)
  let aceLow := uniq == [14, 5, 4, 3, 2]
  let is_straight := straightRun || aceLow
  let ranks := if aceLow then [5, 4, 3, 2, 1] else ranks0
  if is_straight && is_flush then (8, ranks, "straight_flush")
  else if (groups.getD 0 (0, 0)).1 == 4 then
    let four := (groups.getD 0 (0, 0)).2
    (7, [four, (ranks.filter (fun r => r ≠ four)).foldr max 0], "four_kind")
  else if (groups.getD 0 (0, 0)).1 == 3 && (groups.getD 1 (0, 0)).1 == 2 then
    (6, [(groups.getD 0 (0, 0)).2, (groups.getD 1 (0, 0)).2], "full_house")
  else if is_flush then (5, ranks, "flush")
  else if is_straight then (4, ranks, "straight")
  else if (groups.getD 0 (0, 0)).1 == 3 then
    let three := (groups.getD 0 (0, 0)).2
    (3, three :: ranks.filter (fun r => r ≠ three), "three_kind")
  else if (groups.getD 0 (0, 0)).1 == 2 && (groups.getD 1 (0, 0)).1 == 2 then
    let pair_hi := max (groups.getD 0 (0, 0)).2 (groups.getD 1 (0, 0)).2
    let pair_lo := min (groups.getD 0 (0, 0)).2 (groups.getD 1 (0, 0)).2
    let kicker := (ranks.filter (fun r => ¬(r = pair_hi ∨ r = pair_lo))).foldr max 0
    (2, [pair_hi, pair_lo, kicker], "two_pair")
  else if (groups.getD 0 (0, 0)).1 == 2 then
    let pair := (groups.getD 0 (0, 0)).2
    (1, pair :: ranks.filter (fun r => r ≠ pair), "pair")
  else (0, ranks, "high_card")

/-- Embeds `evaluate_hand` (1539-1579): rank a 5-card hand into
`(category, tiebreak, category_name)`. -/
def evaluate_hand (cards : List Card) : ℕ × List ℕ × String :=
  evalRanksSuits (sortDescNat (cards.map rankOfCard)) ((cards.map (fun c => c.2)).dedup).length

/-- Python's `<` on int tuples of possibly different length (lexicographic, a strict
prefix is smaller), as used on the tiebreak part of a hand strength. -/
def pyListLt : List ℕ → List ℕ → Bool
  | _, [] => false
  | [], _ :: _ => true
  | a :: xs, b :: ys => if a < b then true else if b < a then false else pyListLt xs ys

/-- Python's `<` on the `(category, score)` pairs the engine compares at showdown
(simulator.py 1153) and in the side-pot layer-winner scan (1261). -/
def pyPowerLt (p q : ℕ × List ℕ) : Bool :=
  if p.1 < q.1 then true else if q.1 < p.1 then false else pyListLt p.2 q.2

/-- The five action kinds of `models.ActionKind`. -/
inductive ActionKind
  | fold
  | check
  | call
  | raise
  | pass
deriving DecidableEq

/-- `models.KineticIntent`. -/
inductive KineticIntent
  | discard_pressure
  | lockout
  | combo_break
  | tempo_swing
  | forced_line
deriving DecidableEq

/-- `models.ManipulationPlan`. -/
inductive ManipulationPlan
  | threat_framing
  | bait
  | false_concession
  | public_isolation
  | status_challenge
  | betrayal_cue
deriving DecidableEq

/-- `models.DeliveryChannel` (`public` / `private` / `mixed`; the first two are
renamed because they are Lean keywords). -/
inductive DeliveryChannel
  | publicChannel
  | privateChannel
  | mixed
deriving DecidableEq

/-- `models.AttackPlan`.  The engine reads `target_player_id` and `emotional_intent`;
the other fields are carried only into the event log. -/
structure AttackPlan where
  kinetic_intent : KineticIntent
  emotional_intent : EmotionalIntent
  manipulation_plan : ManipulationPlan
  delivery_channel : DeliveryChannel
  target_player_id : String
  expected_behavior_shift : String
  confidence : ℚ
deriving DecidableEq

/-- `models.ActionEnvelope`; the payload dict is modelled by its only read key,
`payload.get("amount")` (`none` when the key is absent), and `reasoning_summary`
is elided (log-only). -/
structure ActionEnvelope where
  player_id : String
  kind : ActionKind
  amount : Option Int
  attack_plan : Option AttackPlan
deriving DecidableEq

/-- Embeds `models.validate_action` (178-187) as a boolean: non-raise actions always
pass; a raise needs an attack plan and `int(payload.get("amount", 0)) > 0`. -/
def validate_action (a : ActionEnvelope) : Bool :=
  if a.kind ≠ ActionKind.raise then true
  else a.attack_plan.isSome && decide (0 < a.amount.getD 0)

/-- Embeds the legal-action computation of `_ask_player_for_action` (905-912):
fold is always legal; check iff `to_call == 0`, else call; raise iff
`bankroll > to_call + min_raise`. -/
def legalActions (to_call bankroll min_raise : Int) : List ActionKind :=
  [ActionKind.fold]
    ++ (if to_call = 0 then [ActionKind.check] else [ActionKind.call])
    ++ (if to_call + min_raise < bankroll then [ActionKind.raise] else [])

/-- The envelope `ActionEnvelope.from_obj({"kind": k}, player_id)` produces: the given
kind with empty payload and no attack plan. -/
def envelopeOfKind (player_id : String) (kind : ActionKind) : ActionEnvelope :=
  ⟨player_id, kind, none, none⟩

/-- Embeds the fallback chain of `_ask_player_for_action` (1013-1022) applied to the
parsed provider action: a schema-invalid action is replaced by call (if `to_call > 0`)
or check, then any action whose kind is outside the legal set is replaced by the
first legal action (`legal[0]`). -/
def sanitizeAction (current_high_bet current_bet bankroll min_raise : Int)
    (a : ActionEnvelope) : ActionEnvelope :=
  let to_call := max 0 (current_high_bet - current_bet)
  let legal := legalActions to_call bankroll min_raise
  let a1 :=
    if validate_action a then a
    else envelopeOfKind a.player_id (if 0 < to_call then ActionKind.call else ActionKind.check)
  if a1.kind ∈ legal then a1 else envelopeOfKind a.player_id (legal.headD ActionKind.fold)

/-- The engine's view of one `models.PlayerState` during a hand (fields not read by
the betting or side-pot code — avatar, hand, focus, stress, resistance bonus and the
affect bookkeeping modelled by `AffectState` — are omitted). -/
structure GPlayer where
  player_id : String
  lives : Int
  bankroll : Int
  current_bet : Int
  hand_contribution : Int
  in_hand : Bool
  tempo : Int
  exposure : Int
  emotions : EmotionState
deriving DecidableEq

/-- Table-scoped state owned by the orchestrator: players, pot, current high bet. -/
structure GState where
  players : List GPlayer
  pot : Int
  current_high_bet : Int
deriving DecidableEq

/-- Embeds `DamageSimulator._find_player` (1324-1328): first player with the id. -/
def findPlayer (st : GState) (player_id : String) : Option GPlayer :=
  st.players.find? (fun p => p.player_id = player_id)

/-- Apply `f` to every list entry carrying the given id — in any real game state the
ids are unique, so this is the single Python object mutation. -/
def updatePlayer (st : GState) (player_id : String) (f : GPlayer → GPlayer) : GState :=
  { st with players := st.players.map (fun p => if p.player_id = player_id then f p else p) }

/-- The repeated chip-commitment mutation of `_apply_betting_action` (lines
1056-1060, 1064-1068, 1100-1104): subtract `commit` from the actor's bankroll, add
it to their current bet and hand contribution, and add it to the pot. -/
def commitChips (st : GState) (actor_id : String) (commit : Int) : GState :=
  { updatePlayer st actor_id (fun p =>
      { p with bankroll := p.bankroll - commit, current_bet := p.current_bet + commit,
               hand_contribution := p.hand_contribution + commit }) with
    pot := st.pot + commit }

/-- The raise branch's side effects (1071-1097): if the action carries an attack plan
whose target is findable, apply the direct emoter attack to the target's emotions
when `enable_direct_emoter_attacks` is set, then bump the actor's tempo. -/
def applyRaiseEffects (enable_direct_emoter_attacks : Bool) (st1 : GState)
    (actor_id : String) (attack_plan : Option AttackPlan) : GState :=
  match attack_plan with
  | none => st1
  | some plan =>
    match findPlayer st1 plan.target_player_id with
    | none => st1
    | some _ =>
      updatePlayer
        (if enable_direct_emoter_attacks then
          updatePlayer st1 plan.target_player_id (fun p =>
            { p with emotions := applyAffectiveEffects p.emotions plan.emotional_intent })
        else st1)
        actor_id (fun p => { p with tempo := p.tempo + 1 })

/-- Embeds `DamageSimulator._apply_betting_action` (1046-1122), event logging elided:
returns the updated state and `was_raise`.  The final else branch (the `pass` kind)
commits a call-sized amount when there is something to call. -/
def applyBettingAction (min_raise : Int) (enable_direct_emoter_attacks : Bool)
    (st : GState) (actor_id : String) (action : ActionEnvelope) : GState × Bool :=
  match findPlayer st actor_id with
  | none => (st, false)
  | some actor =>
    let to_call := max 0 (st.current_high_bet - actor.current_bet)
    match action.kind with
    | .fold =>
        (updatePlayer st actor_id (fun p =>
          { p with in_hand := false, exposure := min (p.exposure + 1) 10 }), false)
    | .check => (st, false)
    | .call => (commitChips st actor_id (min to_call actor.bankroll), false)
    | .raise =>
        let raise_amount := max min_raise (action.amount.getD min_raise)
        let commit := min actor.bankroll (to_call + raise_amount)
        let st1 :=
          { commitChips st actor_id commit with
            current_high_bet := max st.current_high_bet (actor.current_bet + commit) }
        (applyRaiseEffects enable_direct_emoter_attacks st1 actor_id action.attack_plan, true)
    | .pass =>
        if 0 < to_call then (commitChips st actor_id (min to_call actor.bankroll), false)
        else (st, false)

/-- Embeds the ante lines of `_setup_hand` (206-209): the ante is clamped to the
available bankroll (`min(ante, max(0, bankroll))`), then moved from the bankroll into
the player's hand contribution and the pot. -/
def anteStep (ante : Int) (p : GPlayer) (pot : Int) : GPlayer × Int :=
  let ante_paid := min ante (max 0 p.bankroll)
  ({ p with bankroll := p.bankroll - ante_paid,
            hand_contribution := p.hand_contribution + ante_paid }, pot + ante_paid)

/-- Concrete two-player state for counterexamples/witnesses: the raising actor. -/
def cexActor : GPlayer := ⟨"A", 3, 200, 0, 0, true, 0, 0, EmotionState.zero⟩

/-- Concrete target player with all emotions at zero. -/
def cexTarget : GPlayer := ⟨"B", 3, 200, 0, 0, true, 0, 0, EmotionState.zero⟩

/-- An anger-intent attack plan aimed at player `"B"`. -/
def cexPlanAnger : AttackPlan :=
  ⟨.discard_pressure, .anger, .threat_framing, .publicChannel, "B", "fold more", 0.5⟩

/-- A raise action by `"A"` of amount 10 carrying the anger attack plan. -/
def cexRaiseAction : ActionEnvelope := ⟨"A", .raise, some 10, some cexPlanAnger⟩

/-- The early-exit count `len([p for p in participants if p.in_hand])` (793). -/
def countInHand (st : GState) (participant_ids : List String) : ℕ :=
  ((participant_ids.filterMap (findPlayer st)).filter (fun p => p.in_hand)).length

/-- Result of a betting lap / cycle: final state, next oracle index, whether a raise
was seen, and whether the `len(in_hand) <= 1` early return fired. -/
structure LapResult where
  state : GState
  next : ℕ
  raised : Bool
  stopped : Bool

/-- One lap of `_betting_cycle` (786-794): each participant still in hand and alive
gets exactly one decision, drawn from `oracle` at the running decision index (the
oracle stands for the sanitised result of `_ask_player_for_action`); the action is
applied, the off-turn hook (`_offturn_responses`, an arbitrary state transform here)
runs, and the lap stops the whole cycle once at most one participant is in hand.
The `none` branch of the player lookup is unreachable for ids drawn from the state. -/
def bettingLap (min_raise : Int) (enable_direct : Bool) (oracle : ℕ → ActionEnvelope)
    (hook : GState → GState) (participant_ids : List String) :
    List String → GState → ℕ → Bool → LapResult
  | [], st, k, raised => ⟨st, k, raised, false⟩
  | pid :: rest, st, k, raised =>
    match findPlayer st pid with
    | none => bettingLap min_raise enable_direct oracle hook participant_ids rest st k raised
    | some actor =>
      if actor.in_hand = false ∨ actor.lives ≤ 0 then
        bettingLap min_raise enable_direct oracle hook participant_ids rest st k raised
      else
        let r := applyBettingAction min_raise enable_direct st pid (oracle k)
        let st2 := hook r.1
        if countInHand st2 participant_ids ≤ 1 then ⟨st2, k + 1, raised || r.2, true⟩
        else
          bettingLap min_raise enable_direct oracle hook participant_ids rest st2 (k + 1)
            (raised || r.2)

/-- The `while raises_seen and cycle < 2` loop of `_betting_cycle` (780-794), with
`remaining = 2 - cycle` as structural fuel: a lap runs only while a raise was seen
in the previous lap and fewer than two laps have run; the lap's early return exits
the whole loop.  Returns the final state, the next oracle index, and the number of
(possibly partial) laps executed. -/
def bettingCycleAux (min_raise : Int) (enable_direct : Bool) (oracle : ℕ → ActionEnvelope)
    (hook : GState → GState) (participant_ids : List String) :
    ℕ → Bool → GState → ℕ → ℕ → GState × ℕ × ℕ
  | 0, _, st, k, laps => (st, k, laps)
  | n + 1, raises_seen, st, k, laps =>
    if raises_seen then
      let r := bettingLap min_raise enable_direct oracle hook participant_ids
        participant_ids st k false
      if r.stopped then (r.state, r.next, laps + 1)
      else
        bettingCycleAux min_raise enable_direct oracle hook participant_ids n r.raised
          r.state r.next (laps + 1)
    else (st, k, laps)

/-- Embeds `_betting_cycle` (780-794): `raises_seen = True; cycle = 0` then the
bounded while loop. -/
def bettingCycle (min_raise : Int) (enable_direct : Bool) (oracle : ℕ → ActionEnvelope)
    (hook : GState → GState) (participant_ids : List String) (st : GState) (k : ℕ) :
    GState × ℕ × ℕ :=
  bettingCycleAux min_raise enable_direct oracle hook participant_ids 2 true st k 0

/-- Per-player contribution lookup (simulator.py 1236):
`contributions = {p.player_id: max(0, int(p.hand_contribution)) for p in participants}`
read back through the player id; with unique ids the dict entry is the first list
match. -/
def contribOf (participants : List GPlayer) (pid : String) : Int :=
  match participants.find? (fun p => p.player_id = pid) with
  | some p => max 0 p.hand_contribution
  | none => 0

/-- The ascending list of distinct positive contribution levels (1237):
`sorted({amt for amt in contributions.values() if amt > 0})`. -/
def potLevels (participants : List GPlayer) : List Int :=
  List.insertionSort (fun a b => a ≤ b)
    (((participants.map (fun p => max 0 p.hand_contribution)).filter
      (fun a => 0 < a)).dedup)

/-- The contributors at a level (1243):
`[p for p in participants if contributions[p.player_id] >= level]`. -/
def layerAt (participants : List GPlayer) (level : Int) : List GPlayer :=
  participants.filter (fun p => level ≤ contribOf participants p.player_id)

/-- The eligible winner pool at a level (1252): contributors still in hand and
present in the powers dict. -/
def eligibleAt (participants : List GPlayer) (powers : String → Option (ℕ × List ℕ))
    (level : Int) : List GPlayer :=
  (layerAt participants level).filter
    (fun p => p.in_hand && (powers p.player_id).isSome)

/-- The best-power scan over the eligible players (1257-1265): Python's
`power > best_power` resets the winner list, `power == best_power` appends.  The
`none` power branch is unreachable for eligible players. -/
def layerWinners (powers : String → Option (ℕ × List ℕ)) :
    List GPlayer → Option (ℕ × List ℕ) → List GPlayer → List GPlayer
  | [], _, winners => winners
  | p :: rest, best, winners =>
    match powers p.player_id with
    | none => layerWinners powers rest best winners
    | some pw =>
      match best with
      | none => layerWinners powers rest (some pw) [p]
      | some b =>
        if pyPowerLt b pw then layerWinners powers rest (some pw) [p]
        else if pw = b then layerWinners powers rest (some b) (winners ++ [p])
        else layerWinners powers rest (some b) winners

/-- Distribution of one tranche (1267-1270): winner `i` (in enumeration order)
receives `split + (1 if i < remainder else 0)`; here the remainder counts down as the
list is consumed. -/
def distributeTranche : List GPlayer → Int → Int → (String → Int) → (String → Int)
  | [], _, _, payouts => payouts
  | w :: rest, split, rem, payouts =>
    distributeTranche rest split (rem - 1)
      (fun s =>
        if s = w.player_id then payouts s + (split + (if 0 < rem then 1 else 0))
        else payouts s)

/-- The level loop of `_compute_side_pots` (1241-1271): for each level, skip when the
layer is empty, the tranche is non-positive, or no contributor is eligible; otherwise
split the tranche among the best-powered eligible contributors (floor division,
remainder chips one by one in enumeration order). -/
def sidePotLoop (participants : List GPlayer) (powers : String → Option (ℕ × List ℕ)) :
    List Int → Int → (String → Int) → (String → Int)
  | [], _, payouts => payouts
  | level :: rest, prev, payouts =>
    let layer := layerAt participants level
    if layer.isEmpty then sidePotLoop participants powers rest level payouts
    else
      let tranche := (level - prev) * (layer.length : Int)
      if tranche ≤ 0 then sidePotLoop participants powers rest level payouts
      else
        let eligible := eligibleAt participants powers level
        if eligible.isEmpty then sidePotLoop participants powers rest level payouts
        else
          let winners := layerWinners powers eligible none []
          sidePotLoop participants powers rest level
            (distributeTranche winners (tranche / (winners.length : Int))
              (tranche % (winners.length : Int)) payouts)

/-- Embeds `_compute_side_pots` (1232-1272): the payout dict keyed by player id —
every participant starts at 0 and only members of some winner list are incremented. -/
def computeSidePots (participants : List GPlayer)
    (powers : String → Option (ℕ × List ℕ)) : String → Int :=
  sidePotLoop participants powers (potLevels participants) 0 (fun _ => 0)

/-- Sum of the payouts over the participants. -/
def sumPayouts (participants : List GPlayer) (payouts : String → Int) : Int :=
  (participants.map (fun p => payouts p.player_id)).sum

/-- Sum of the participants' hand contributions — the total pot of the hand. -/
def totalContrib (participants : List GPlayer) : Int :=
  (participants.map (fun p => p.hand_contribution)).sum

/-- Proof bookkeeping: the total of the tranches the level loop walks,
`Σ (level − prev) · |layer(level)|`. -/
def teleTotal (participants : List GPlayer) : List Int → Int → Int
  | [], _ => 0
  | level :: rest, prev =>
      (level - prev) * ((layerAt participants level).length : Int)
        + teleTotal participants rest level

/-- Proof bookkeeping: one player's telescoping share,
`Σ over levels ≤ c of (level − prev)`. -/
def teleOne : List Int → Int → Int → Int
  | [], _, _ => 0
  | level :: rest, prev, c =>
      (if level ≤ c then level - prev else 0) + teleOne rest level c

/-- Side-pot scenario players: in-hand short stack with contribution 5. -/
def sideA : GPlayer := ⟨"A", 3, 0, 0, 5, true, 0, 0, EmotionState.zero⟩

/-- Side-pot scenario players: folded player with contribution 10. -/
def sideB : GPlayer := ⟨"B", 3, 0, 0, 10, false, 0, 0, EmotionState.zero⟩

/-- Showdown powers for the two-player scenario: only the in-hand player `"A"` is
ranked (folded players never enter the powers dict). -/
def powersAB : String → Option (ℕ × List ℕ) :=
  fun s => if s = "A" then some (1, [5]) else none

/-- The spec's all-in example: contributions 50 / 100 / 150, everyone at showdown. -/
def allinA : GPlayer := ⟨"A", 3, 0, 0, 50, true, 0, 0, EmotionState.zero⟩

/-- Second all-in player, contribution 100. -/
def allinB : GPlayer := ⟨"B", 3, 0, 0, 100, true, 0, 0, EmotionState.zero⟩

/-- Third all-in player, contribution 150. -/
def allinC : GPlayer := ⟨"C", 3, 0, 0, 150, true, 0, 0, EmotionState.zero⟩

/-- Showdown powers for the all-in example: `"A"` strongest, then `"B"`, then `"C"`. -/
def powersABC : String → Option (ℕ × List ℕ) :=
  fun s =>
    if s = "A" then some (5, [14, 13])
    else if s = "B" then some (3, [9]) else if s = "C" then some (1, [7]) else none

/- ======================================================================
   THEOREMS
   ====================================================================== -/

/-- The clamped value lies in `[lo, hi]` whenever the interval is non-empty. -/
theorem clampf_mem (v lo hi : ℚ) (h : lo ≤ hi) : lo ≤ clampf v lo hi ∧ clampf v lo hi ≤ hi :=
  ⟨le_max_left _ _, max_le h (min_le_left _ _)⟩

/-- Reading `applySingleEmotionDelta` back: the named emotion is clamped into `[-1,1]`,
every other emotion is unchanged. -/
theorem get_applySingleEmotionDelta (em : EmotionState) (e : Emotion) (d : ℚ) (x : Emotion) :
    (applySingleEmotionDelta em e d).get x =
      if x = e then clampf (em.get e + d) (-1) 1 else em.get x := by
  cases e <;> cases x <;> simp [applySingleEmotionDelta, EmotionState.get]

/-- One affect resolution preserves the affect invariant; the shift bound needs no
assumption on the previous shift because the clip interval is always `[-0.6, 0.6]`
around zero total. -/
theorem resolveAffectDelta_inv (st : AffectState) (e : Emotion) (d : ℚ) (h : AffectInv st) :
    AffectInv (resolveAffectDelta st e d) := by
  obtain ⟨hshift, hem⟩ := h
  constructor
  · intro x
    show |(if x = e then _ else st.hand_emotion_shift x)| ≤ (0.6 : ℚ)
    by_cases hx : x = e
    · subst hx
      rw [if_pos rfl]
      have hmem := clampf_mem d (-(0.6 : ℚ) - st.hand_emotion_shift x)
        ((0.6 : ℚ) - st.hand_emotion_shift x) (by linarith [abs_le.mp (hshift x)])
      rw [abs_le]
      constructor <;> [linarith [hmem.1]; linarith [hmem.2]]
    · simp only [if_neg hx]
      exact hshift x
  · intro x
    have hre : (resolveAffectDelta st e d).emotions
        = applySingleEmotionDelta st.emotions e (capHandEmotionDelta st e d 0.6).1 := rfl
    rw [hre, get_applySingleEmotionDelta]
    by_cases hx : x = e
    · rw [if_pos hx]
      exact clampf_mem (st.emotions.get e + (capHandEmotionDelta st e d 0.6).1)
        (-1) 1 (by norm_num)
    · rw [if_neg hx]
      exact hem x

/-- The affect invariant is preserved by any sequence of affect resolutions. -/
theorem applyAffectSeq_inv (events : List (Emotion × ℚ)) :
    ∀ st : AffectState, AffectInv st → AffectInv (applyAffectSeq st events) := by
  induction events with
  | nil => intro st h; exact h
  | cons ev rest ih =>
      intro st h
      exact ih (resolveAffectDelta st ev.1 ev.2) (resolveAffectDelta_inv st ev.1 ev.2 h)

/-- C2: for any sequence of affect resolutions within one hand (affect-phase attacks,
unpaired direct assists, self-regulation, off-turn regulation, chatter effects — all
of which route their delta through `_cap_hand_emotion_delta` with cap 0.6 and then
`_apply_single_emotion_delta`), starting from the hand-setup state
(`hand_emotion_shift` all zero, emotions in `[-1,1]`), the accumulated per-hand
shift satisfies `|hand_emotion_shift[e]| ≤ 0.6` and every emotion stays in `[-1,1]`;
since `events` ranges over every prefix of the hand's resolutions, the bounds hold
at all times within the hand. -/
theorem hand_emotion_shift_capped (st0 : AffectState) (events : List (Emotion × ℚ))
    (hshift0 : ∀ e, st0.hand_emotion_shift e = 0)
    (hem0 : ∀ e, -1 ≤ st0.emotions.get e ∧ st0.emotions.get e ≤ 1) :
    (∀ e, |(applyAffectSeq st0 events).hand_emotion_shift e| ≤ 0.6) ∧
      ∀ e, -1 ≤ (applyAffectSeq st0 events).emotions.get e ∧
        (applyAffectSeq st0 events).emotions.get e ≤ 1 :=
  applyAffectSeq_inv events st0 ⟨fun e => by rw [hshift0 e]; norm_num, hem0⟩

/-- Witness for C2 at a concrete input: a single oversized fear attack (raw delta 2)
against a fresh player stays within the cap. -/
theorem hand_emotion_shift_capped_witness :
    |(applyAffectSeq ⟨fun _ => 0, EmotionState.zero⟩
      [(Emotion.fear, 2)]).hand_emotion_shift Emotion.fear| ≤ 0.6 :=
  (hand_emotion_shift_capped ⟨fun _ => 0, EmotionState.zero⟩ [(Emotion.fear, 2)]
    (fun _ => rfl)
    (fun e => by
      cases e <;> constructor <;> norm_num [EmotionState.get, EmotionState.zero])).1
    Emotion.fear

/-- C8: for every resolved affect-phase attack whose lead has stats in the ranges the
game creates and maintains (`skill_affect = randint(45, 80)`, `will = randint(50, 75)`
at game start, `stress` clamped into `[0,100]`, `focus_spend ≥ 0` from `_commit_focus`),
the team power computed at simulator.py 388-389 equals
`min(lead_power + 0.6 * assist_sum, 2 * lead_power)` — the `max(1.0, lead_power)`
guard is inert because such a lead's power is at least 12.75 — and each contributor's
power is `0.45*skill_affect + 0.35*will + 0.20*spend - 0.25*stress` floored at 0. -/
theorem team_power_cap_eq (lead : Contributor) (assistants : List Contributor)
    (hskill : 45 ≤ lead.skill_affect) (hwill : 50 ≤ lead.will)
    (hstress : lead.stress ≤ 100) (hspend : 0 ≤ lead.spend) :
    attackTeamPower lead assistants
        = min (lead.power + 0.6 * (assistants.map Contributor.power).sum) (2 * lead.power) ∧
      lead.power
        = max 0 (0.45 * lead.skill_affect + 0.35 * lead.will
            + 0.20 * lead.spend - 0.25 * lead.stress) := by
  have hx : (1 : ℚ) ≤ 0.45 * lead.skill_affect + 0.35 * lead.will
      + 0.20 * lead.spend - 0.25 * lead.stress := by linarith
  have hp : (1 : ℚ) ≤ lead.power :=
    le_trans hx (le_max_right _ _)
  constructor
  · unfold attackTeamPower
    rw [max_eq_right hp]
  · rfl

/-- Witness for C8 at a concrete input: lead with skill 60, will 60, no stress,
spending 10 focus, one assistant. -/
theorem team_power_cap_eq_witness :
    attackTeamPower ⟨60, 60, 0, 10⟩ [⟨50, 55, 20, 0⟩]
      = min (Contributor.power ⟨60, 60, 0, 10⟩
          + 0.6 * ([⟨50, 55, 20, 0⟩].map Contributor.power).sum)
        (2 * Contributor.power ⟨60, 60, 0, 10⟩) :=
  (team_power_cap_eq ⟨60, 60, 0, 10⟩ [⟨50, 55, 20, 0⟩]
    (by norm_num) (by norm_num) (by norm_num) (by norm_num)).1

/-- Each participant is offered at most one decision per lap: a lap consumes at most
one oracle index per listed participant. -/
theorem bettingLap_next_le (min_raise : Int) (enable_direct : Bool)
    (oracle : ℕ → ActionEnvelope) (hook : GState → GState)
    (participant_ids : List String) :
    ∀ (rest : List String) (st : GState) (k : ℕ) (raised : Bool),
      (bettingLap min_raise enable_direct oracle hook participant_ids rest st k
        raised).next ≤ k + rest.length := by
  intro rest
  induction rest with
  | nil => intro st k raised; simp [bettingLap]
  | cons pid rest ih =>
      intro st k raised
      simp only [bettingLap]
      cases hfp : findPlayer st pid with
      | none =>
          show (bettingLap min_raise enable_direct oracle hook participant_ids rest st k
            raised).next ≤ k + (pid :: rest).length
          have h1 := ih st k raised
          simp only [List.length_cons]
          omega
      | some actor =>
          dsimp only
          by_cases hskip : actor.in_hand = false ∨ actor.lives ≤ 0
          · rw [if_pos hskip]
            have h1 := ih st k raised
            simp only [List.length_cons]
            omega
          · rw [if_neg hskip]
            by_cases hcnt : countInHand
                (hook (applyBettingAction min_raise enable_direct st pid (oracle k)).1)
                participant_ids ≤ 1
            · rw [if_pos hcnt]
              show k + 1 ≤ k + (pid :: rest).length
              simp only [List.length_cons]
              omega
            · rw [if_neg hcnt]
              have h1 := ih
                (hook (applyBettingAction min_raise enable_direct st pid (oracle k)).1)
                (k + 1)
                (raised || (applyBettingAction min_raise enable_direct st pid (oracle k)).2)
              simp only [List.length_cons]
              omega

/-- C6: a betting cycle performs at most 2 laps over the participants; there is a
second lap exactly when the first lap produced at least one raise and did not end the
cycle early (at most one player left in hand), and there is never a third lap even if
the second lap raised again.  Each lap hands every participant at most one decision,
so the whole cycle consumes at most `2 × |participants|` oracle decisions. -/
theorem betting_cycle_two_laps (min_raise : Int) (enable_direct : Bool)
    (oracle : ℕ → ActionEnvelope) (hook : GState → GState)
    (participant_ids : List String) (st : GState) (k : ℕ) :
    (bettingCycle min_raise enable_direct oracle hook participant_ids st k).2.2 ≤ 2 ∧
      ((bettingCycle min_raise enable_direct oracle hook participant_ids st k).2.2 = 2 ↔
        (bettingLap min_raise enable_direct oracle hook participant_ids participant_ids
            st k false).raised = true ∧
          (bettingLap min_raise enable_direct oracle hook participant_ids participant_ids
            st k false).stopped = false) ∧
      (bettingCycle min_raise enable_direct oracle hook participant_ids st k).2.1
        ≤ k + 2 * participant_ids.length := by
  have hlap := bettingLap_next_le min_raise enable_direct oracle hook participant_ids
  have e1 : bettingCycle min_raise enable_direct oracle hook participant_ids st k
      = (if (bettingLap min_raise enable_direct oracle hook participant_ids
            participant_ids st k false).stopped = true
         then ((bettingLap min_raise enable_direct oracle hook participant_ids
                participant_ids st k false).state,
               (bettingLap min_raise enable_direct oracle hook participant_ids
                participant_ids st k false).next, 1)
         else bettingCycleAux min_raise enable_direct oracle hook participant_ids 1
           (bettingLap min_raise enable_direct oracle hook participant_ids
             participant_ids st k false).raised
           (bettingLap min_raise enable_direct oracle hook participant_ids
             participant_ids st k false).state
           (bettingLap min_raise enable_direct oracle hook participant_ids
             participant_ids st k false).next 1) := rfl
  rcases hl1 : bettingLap min_raise enable_direct oracle hook participant_ids
      participant_ids st k false with ⟨s1, k1, b1, c1⟩
  have hk1 : k1 ≤ k + participant_ids.length := by
    have h' := hlap participant_ids st k false
    rw [hl1] at h'
    exact h'
  rw [hl1] at e1
  dsimp only at e1
  rw [e1]
  cases c1 with
  | true =>
      rw [if_pos rfl]
      refine ⟨by norm_num, by simp, ?_⟩
      show k1 ≤ k + 2 * participant_ids.length
      omega
  | false =>
      rw [if_neg (by simp)]
      cases b1 with
      | false =>
          have e2 : bettingCycleAux min_raise enable_direct oracle hook participant_ids 1
              false s1 k1 1 = (s1, k1, 1) := rfl
          rw [e2]
          refine ⟨by norm_num, by simp, ?_⟩
          show k1 ≤ k + 2 * participant_ids.length
          omega
      | true =>
          have e2 : bettingCycleAux min_raise enable_direct oracle hook participant_ids 1
              true s1 k1 1
              = (if (bettingLap min_raise enable_direct oracle hook participant_ids
                    participant_ids s1 k1 false).stopped = true
                 then ((bettingLap min_raise enable_direct oracle hook participant_ids
                        participant_ids s1 k1 false).state,
                       (bettingLap min_raise enable_direct oracle hook participant_ids
                        participant_ids s1 k1 false).next, 2)
                 else ((bettingLap min_raise enable_direct oracle hook participant_ids
                        participant_ids s1 k1 false).state,
                       (bettingLap min_raise enable_direct oracle hook participant_ids
                        participant_ids s1 k1 false).next, 2)) := rfl
          rw [ite_self] at e2
          rw [e2]
          have hk2 := hlap participant_ids s1 k1 false
          refine ⟨by norm_num, by simp, ?_⟩
          show (bettingLap min_raise enable_direct oracle hook participant_ids
            participant_ids s1 k1 false).next ≤ k + 2 * participant_ids.length
          omega

/-- C9 (amended): when a raise-attack nudge is applied with direct attacks enabled,
the intent's primary emotion receives one fixed bump of size 0.15-0.25 (clamped at 1);
a fixed secondary bump goes to confidence (−0.1) when the intent is fear or shame and
to tilt (+0.1 or +0.15) when it is anger, overconfidence or paranoia; every other
emotion of the target is unchanged. -/
theorem direct_attack_fixed_effect (e : EmotionState) (intent : EmotionalIntent) :
    (0.15 ≤ intentPrimaryDelta intent ∧ intentPrimaryDelta intent ≤ 0.25) ∧
      (applyAffectiveEffects e intent).get (intentPrimaryEmotion intent)
          = min 1 (e.get (intentPrimaryEmotion intent) + intentPrimaryDelta intent) ∧
      (∀ x δ, intentSideEffect intent = some (x, δ) →
        (applyAffectiveEffects e intent).get x
            = (if δ < 0 then max (-1) (e.get x + δ) else min 1 (e.get x + δ)) ∧
          0.1 ≤ |δ| ∧ |δ| ≤ 0.15) ∧
      ∀ x, x ≠ intentPrimaryEmotion intent →
        (∀ y δ, intentSideEffect intent = some (y, δ) → x ≠ y) →
        (applyAffectiveEffects e intent).get x = e.get x := by
  refine ⟨⟨?_, ?_⟩, ?_, ?_, ?_⟩
  · cases intent <;> norm_num [intentPrimaryDelta]
  · cases intent <;> norm_num [intentPrimaryDelta]
  · cases intent <;> rfl
  · cases intent <;> intro x δ h <;>
      first
        | exact Option.noConfusion h
        | (simp only [intentSideEffect, Option.some.injEq, Prod.mk.injEq] at h;
           obtain ⟨rfl, rfl⟩ := h;
           exact ⟨by norm_num [applyAffectiveEffects, EmotionState.get, sub_eq_add_neg],
             by norm_num [le_abs], by norm_num [abs_le]⟩)
  · cases intent <;> intro x hx1 hx2 <;>
      cases x <;>
      first
        | rfl
        | exact absurd rfl hx1
        | exact absurd rfl (hx2 _ _ rfl)

/-- Witness for C9's amended theorem at a concrete input: an anger-intent raise-attack
against a fresh target bumps anger by exactly 0.2. -/
theorem direct_attack_fixed_effect_witness :
    (applyAffectiveEffects EmotionState.zero EmotionalIntent.anger).get
        (intentPrimaryEmotion EmotionalIntent.anger)
      = min 1 (EmotionState.zero.get (intentPrimaryEmotion EmotionalIntent.anger)
          + intentPrimaryDelta EmotionalIntent.anger) :=
  (direct_attack_fixed_effect EmotionState.zero EmotionalIntent.anger).2.1

/-- Sorting descending is determined by the multiset of inputs. -/
theorem sortDescNat_eq_of_perm (l1 l2 : List ℕ) (h : l1.Perm l2) :
    sortDescNat l1 = sortDescNat l2 :=
  congrArg List.reverse
    (List.eq_of_perm_of_sorted
      ((List.perm_insertionSort _ l1).trans (h.trans (List.perm_insertionSort _ l2).symm))
      (List.sorted_insertionSort _ l1) (List.sorted_insertionSort _ l2))

/-- C4: `evaluate_hand` returns the same `(category, tiebreak, category_name)` tuple
for every permutation of its input cards — the sorted rank list and the number of
distinct suits are the only data the evaluation consumes, and both are invariant. -/
theorem evaluate_hand_perm_invariant (cards1 cards2 : List Card) (h : cards1.Perm cards2) :
    evaluate_hand cards1 = evaluate_hand cards2 := by
  unfold evaluate_hand
  rw [sortDescNat_eq_of_perm _ _ (h.map rankOfCard),
    ((h.map (fun c => c.2)).dedup).length_eq]

/-- Witness for C4 at a concrete input: a reordered 5-card hand evaluates identically. -/
theorem evaluate_hand_perm_invariant_witness :
    evaluate_hand [('A', 'S'), ('K', 'H'), ('7', 'D'), ('4', 'C'), ('2', 'S')]
      = evaluate_hand [('2', 'S'), ('4', 'C'), ('7', 'D'), ('K', 'H'), ('A', 'S')] :=
  evaluate_hand_perm_invariant _ _ (by decide)

/-- C5: A-2-3-4-5 of one suit evaluates to category 8 with tiebreak `[5,4,3,2,1]`,
the 6-high straight flush evaluates to category 8 with tiebreak `[6,5,4,3,2]`, and the
former compares strictly smaller under the engine's `(category, score)` comparison. -/
theorem ace_low_straight_flush_eval :
    evaluate_hand [('A', 'S'), ('2', 'S'), ('3', 'S'), ('4', 'S'), ('5', 'S')]
        = (8, [5, 4, 3, 2, 1], "straight_flush") ∧
      evaluate_hand [('6', 'S'), ('5', 'S'), ('4', 'S'), ('3', 'S'), ('2', 'S')]
        = (8, [6, 5, 4, 3, 2], "straight_flush") ∧
      pyPowerLt (8, [5, 4, 3, 2, 1]) (8, [6, 5, 4, 3, 2]) = true :=
  ⟨by decide, by decide, by decide⟩

/-- C7: for every provider response (modelled by the arbitrary envelope
`ActionEnvelope.from_obj` can produce), the action actually applied is legal: its
kind belongs to the computed legal set, and if the parsed action fails schema
validation it is replaced by call when `to_call > 0` and by check otherwise. -/
theorem sanitized_action_legal (current_high_bet current_bet bankroll min_raise : Int)
    (a : ActionEnvelope) :
    (sanitizeAction current_high_bet current_bet bankroll min_raise a).kind
        ∈ legalActions (max 0 (current_high_bet - current_bet)) bankroll min_raise ∧
      (validate_action a = false →
        (sanitizeAction current_high_bet current_bet bankroll min_raise a).kind
          = if 0 < max 0 (current_high_bet - current_bet) then ActionKind.call
            else ActionKind.check) := by
  have htc : (0 : Int) ≤ max 0 (current_high_bet - current_bet) := le_max_left _ _
  have hcall : 0 < max 0 (current_high_bet - current_bet) →
      ActionKind.call
        ∈ legalActions (max 0 (current_high_bet - current_bet)) bankroll min_raise := by
    intro h
    have hne : ¬ max 0 (current_high_bet - current_bet) = 0 := by omega
    simp only [legalActions, if_neg hne]
    simp
  have hcheck : max 0 (current_high_bet - current_bet) = 0 →
      ActionKind.check
        ∈ legalActions (max 0 (current_high_bet - current_bet)) bankroll min_raise := by
    intro h
    simp only [legalActions, if_pos h]
    simp
  constructor
  · by_cases hv : validate_action a = true
    · simp only [sanitizeAction, hv, if_true]
      split
      · next h => exact h
      · next h => exact List.mem_cons_self _ _
    · have hvb : validate_action a = false := by
        cases hb : validate_action a
        · rfl
        · exact absurd hb hv
      simp only [sanitizeAction, hvb, Bool.false_eq_true, if_false, envelopeOfKind]
      by_cases htc0 : (0 : Int) < max 0 (current_high_bet - current_bet)
      · simp [htc0, hcall htc0]
      · have h0 : max 0 (current_high_bet - current_bet) = 0 := by omega
        simp [htc0, hcheck h0]
  · intro hvb
    simp only [sanitizeAction, hvb, Bool.false_eq_true, if_false, envelopeOfKind]
    by_cases htc0 : (0 : Int) < max 0 (current_high_bet - current_bet)
    · simp [htc0, hcall htc0]
    · have h0 : max 0 (current_high_bet - current_bet) = 0 := by omega
      simp [htc0, hcheck h0]

/-- Witness for C7 at a concrete input: a raise with amount 0 (schema-invalid) while
facing a bet of 10 is replaced by call, which is legal. -/
theorem sanitized_action_legal_witness :
    (sanitizeAction 10 0 100 10 ⟨"P1", ActionKind.raise, some 0, none⟩).kind
        ∈ legalActions (max 0 (10 - 0)) 100 10 ∧
      (sanitizeAction 10 0 100 10 ⟨"P1", ActionKind.raise, some 0, none⟩).kind
        = ActionKind.call := by
  have h := sanitized_action_legal 10 0 100 10 ⟨"P1", ActionKind.raise, some 0, none⟩
  refine ⟨h.1, ?_⟩
  have h2 := h.2 (by decide)
  rw [if_pos (by norm_num)] at h2
  exact h2

/-- Membership in an `updatePlayer` result reduces to membership before the update. -/
theorem updatePlayer_forall (st : GState) (player_id : String) (f : GPlayer → GPlayer)
    (P : GPlayer → Prop) (h : ∀ p ∈ st.players, P p)
    (hf : ∀ p ∈ st.players, p.player_id = player_id → P (f p)) :
    ∀ q ∈ (updatePlayer st player_id f).players, P q := by
  intro q hq
  simp only [updatePlayer, List.mem_map] at hq
  obtain ⟨p0, hp0, rfl⟩ := hq
  split
  · next h0 => exact hf p0 hp0 h0
  · exact h p0 hp0

/-- In a state with unique player ids, every member carrying the looked-up id is the
player `_find_player` returns. -/
theorem findPlayer_eq_of_nodup (st : GState) (pid : String) (actor p0 : GPlayer)
    (hnodup : (st.players.map (fun p => p.player_id)).Nodup)
    (hfind : findPlayer st pid = some actor)
    (hp0 : p0 ∈ st.players) (hid : p0.player_id = pid) : p0 = actor := by
  have hfind' : st.players.find? (fun p => decide (p.player_id = pid)) = some actor := hfind
  have hmem : actor ∈ st.players := List.mem_of_find?_eq_some hfind'
  have hprop := List.find?_some hfind'
  have hactor_id : actor.player_id = pid := by simpa using hprop
  exact List.inj_on_of_nodup_map hnodup hp0 hmem (by rw [hid, hactor_id])

/-- The raise side effects touch only emotions and tempo, so they preserve
non-negativity of every bankroll. -/
theorem applyRaiseEffects_bankroll (enable : Bool) (st1 : GState) (actor_id : String)
    (ap : Option AttackPlan) (h : ∀ q ∈ st1.players, 0 ≤ q.bankroll) :
    ∀ q ∈ (applyRaiseEffects enable st1 actor_id ap).players, 0 ≤ q.bankroll := by
  intro q hq
  unfold applyRaiseEffects at hq
  split at hq
  · exact h q hq
  · split at hq
    · exact h q hq
    · refine updatePlayer_forall _ actor_id _ (fun r => 0 ≤ r.bankroll) ?_ ?_ q hq
      · by_cases hen : enable = true
        · rw [if_pos hen]
          exact updatePlayer_forall _ _ _ _ h (fun r hr _ => h r hr)
        · rw [if_neg hen]
          exact h
      · intro r hr _
        show 0 ≤ r.bankroll
        by_cases hen : enable = true
        · rw [if_pos hen] at hr
          refine updatePlayer_forall _ _ _ (fun s => 0 ≤ s.bankroll) ?_ ?_ r hr
          · exact h
          · exact fun s hs _ => h s hs
        · rw [if_neg hen] at hr
          exact h r hr

/-- C3: bankrolls never go negative.  The hand-setup ante is clamped to the available
bankroll, and every betting action (call, raise, and the defensive else branch)
commits at most the actor's bankroll, so both operations preserve `bankroll ≥ 0`
for every player. -/
theorem bankroll_never_negative (ante : Int) (p : GPlayer) (pot : Int)
    (min_raise : Int) (enable_direct : Bool) (st : GState) (actor_id : String)
    (action : ActionEnvelope)
    (hp : 0 ≤ p.bankroll)
    (hnodup : (st.players.map (fun q => q.player_id)).Nodup)
    (hst : ∀ q ∈ st.players, 0 ≤ q.bankroll) :
    0 ≤ (anteStep ante p pot).1.bankroll ∧
      ∀ q ∈ (applyBettingAction min_raise enable_direct st actor_id action).1.players,
        0 ≤ q.bankroll := by
  constructor
  · simp only [anteStep]
    omega
  · cases hfind : findPlayer st actor_id with
    | none =>
        simp only [applyBettingAction, hfind]
        exact hst
    | some actor =>
        have hfind' : st.players.find? (fun q => decide (q.player_id = actor_id))
            = some actor := hfind
        have hactor : 0 ≤ actor.bankroll := hst actor (List.mem_of_find?_eq_some hfind')
        have hcore : ∀ commit : Int, commit ≤ actor.bankroll →
            ∀ q ∈ (commitChips st actor_id commit).players, 0 ≤ q.bankroll := by
          intro commit hcommit
          refine updatePlayer_forall st actor_id _ _ hst (fun q hq hid => ?_)
          have hq_eq : q = actor :=
            findPlayer_eq_of_nodup st actor_id actor q hnodup hfind hq hid
          show 0 ≤ q.bankroll - commit
          rw [hq_eq]
          omega
        cases hk : action.kind with
        | fold =>
            simp only [applyBettingAction, hfind, hk]
            exact updatePlayer_forall st actor_id _ _ hst (fun q hq _ => hst q hq)
        | check =>
            simp only [applyBettingAction, hfind, hk]
            exact hst
        | call =>
            simp only [applyBettingAction, hfind, hk]
            exact hcore _ (min_le_right _ _)
        | raise =>
            simp only [applyBettingAction, hfind, hk]
            exact applyRaiseEffects_bankroll _ _ _ _ (hcore _ (min_le_left _ _))
        | pass =>
            simp only [applyBettingAction, hfind, hk]
            by_cases htc : (0 : Int) < max 0 (st.current_high_bet - actor.current_bet)
            · rw [if_pos htc]
              exact hcore _ (min_le_right _ _)
            · rw [if_neg htc]
              exact hst

/-- Witness for C3 at a concrete input: a 200-chip player paying a 10-chip ante, and
the state of the caller after committing 10 chips against a high bet of 10. -/
theorem bankroll_never_negative_witness :
    0 ≤ (anteStep 10 cexActor 0).1.bankroll ∧
      0 ≤ (⟨"A", 3, 190, 10, 10, true, 0, 0, EmotionState.zero⟩ : GPlayer).bankroll :=
  ⟨(bankroll_never_negative 10 cexActor 0 10 true ⟨[cexActor, cexTarget], 0, 10⟩ "A"
      (envelopeOfKind "A" ActionKind.call) (by decide) (by decide)
      (by intro q hq; fin_cases hq <;> decide)).1,
    (bankroll_never_negative 10 cexActor 0 10 true ⟨[cexActor, cexTarget], 0, 10⟩ "A"
      (envelopeOfKind "A" ActionKind.call) (by decide) (by decide)
      (by intro q hq; fin_cases hq <;> decide)).2
      ⟨"A", 3, 190, 10, 10, true, 0, 0, EmotionState.zero⟩ (by decide)⟩

/-- C9 counterexample: with direct emoter attacks enabled, an anger-intent raise-attack
by `"A"` against `"B"` (both fresh) also changes the target's tilt from 0 to 0.1 — an
emotion that is neither the named emotion (anger) nor confidence — refuting the claim
that no other emotion of the target changes. -/
theorem direct_attack_changes_other_emotion :
    ((findPlayer (applyBettingAction 10 true ⟨[cexActor, cexTarget], 0, 0⟩ "A"
          cexRaiseAction).1 "B").map (fun p => p.emotions.tilt) = some 0.1) ∧
      cexTarget.emotions.tilt = 0 ∧ (0.1 : ℚ) ≠ 0 ∧
      cexPlanAnger.emotional_intent = EmotionalIntent.anger := by
  refine ⟨?_, by decide, by norm_num, by decide⟩
  simp [applyBettingAction, cexActor, cexTarget, cexRaiseAction, cexPlanAnger,
    findPlayer, updatePlayer, commitChips, applyRaiseEffects, applyAffectiveEffects,
    EmotionState.zero, List.find?]
  norm_num

/-- Pointwise sums of integer-valued maps add. -/
theorem list_sum_map_add {α : Type} (l : List α) (f g : α → Int) :
    (l.map (fun x => f x + g x)).sum = (l.map f).sum + (l.map g).sum := by
  induction l with
  | nil => simp
  | cons a l ih =>
      simp only [List.map_cons, List.sum_cons, ih]
      ring

/-- A filter's length, cast to `Int`, as a sum of indicators. -/
theorem length_filter_eq_sum {α : Type} (l : List α) (q : α → Bool) :
    (((l.filter q).length : ℕ) : Int)
      = (l.map (fun x => if q x then (1 : Int) else 0)).sum := by
  induction l with
  | nil => simp
  | cons a l ih =>
      simp only [List.filter_cons, List.map_cons, List.sum_cons]
      by_cases h : q a = true
      · rw [if_pos h, if_pos h]
        simp only [List.length_cons]
        push_cast
        rw [ih]
        ring
      · rw [if_neg h, if_neg h]
        rw [ih]
        ring

/-- Scalar multiples distribute over list sums. -/
theorem mul_list_sum {α : Type} (c : Int) (l : List α) (f : α → Int) :
    c * (l.map f).sum = (l.map (fun x => c * f x)).sum := by
  induction l with
  | nil => simp
  | cons a l ih =>
      simp only [List.map_cons, List.sum_cons, mul_add, ih]

/-- Evaluation of the telescoping share: over a strictly ascending level list whose
members all exceed `prev`, a contribution that is below `prev` or equal to one of the
levels telescopes to `max c prev - prev`. -/
theorem teleOne_eval : ∀ (ls : List Int) (prev c : Int), ls.Pairwise (· < ·) →
    (∀ l ∈ ls, prev < l) → (c ≤ prev ∨ c ∈ ls) →
    teleOne ls prev c = max c prev - prev := by
  intro ls
  induction ls with
  | nil =>
      intro prev c _ _ hc
      rcases hc with hc | hc
      · simp only [teleOne]
        omega
      · exact absurd hc (List.not_mem_nil c)
  | cons level rest ih =>
      intro prev c hchain hgt hc
      have hlt : prev < level := hgt level (List.mem_cons_self _ _)
      have hrest_gt : ∀ x ∈ rest, level < x := fun x hx =>
        (List.pairwise_cons.mp hchain).1 x hx
      have hchain' : rest.Pairwise (· < ·) := (List.pairwise_cons.mp hchain).2
      simp only [teleOne]
      rcases hc with hc | hc
      · rw [if_neg (by omega)]
        rw [ih level c hchain' hrest_gt (Or.inl (by omega))]
        omega
      · rcases List.mem_cons.mp hc with rfl | hc
        · rw [if_pos le_rfl]
          rw [ih c c hchain' hrest_gt (Or.inl le_rfl)]
          omega
        · have hlc : level < c := hrest_gt c hc
          rw [if_pos (le_of_lt hlc)]
          rw [ih level c hchain' hrest_gt (Or.inr hc)]
          omega

/-- The tranche total is the sum of the players' telescoping shares. -/
theorem teleTotal_eq (participants : List GPlayer) :
    ∀ (ls : List Int) (prev : Int),
      teleTotal participants ls prev
        = (participants.map (fun p =>
            teleOne ls prev (contribOf participants p.player_id))).sum := by
  intro ls
  induction ls with
  | nil =>
      intro prev
      simp [teleTotal, teleOne]
  | cons level rest ih =>
      intro prev
      simp only [teleTotal, teleOne]
      rw [ih level]
      simp only [layerAt]
      rw [length_filter_eq_sum, mul_list_sum, ← list_sum_map_add]
      congr 1
      apply List.map_congr_left
      intro p hp
      by_cases h : level ≤ contribOf participants p.player_id
      · simp [h]
      · simp [h]

/-- The level list is strictly ascending. -/
theorem potLevels_sorted (participants : List GPlayer) :
    (potLevels participants).Pairwise (· < ·) := by
  have hs : List.Sorted (fun a b : Int => a ≤ b) (potLevels participants) :=
    List.sorted_insertionSort _ _
  have hperm : List.Perm (potLevels participants)
      (((participants.map (fun p => max 0 p.hand_contribution)).filter
          (fun a => 0 < a)).dedup) :=
    List.perm_insertionSort _ _
  have hn : (potLevels participants).Nodup := hperm.nodup_iff.mpr (List.nodup_dedup _)
  exact hs.lt_of_le hn

/-- Every level is positive. -/
theorem potLevels_pos (participants : List GPlayer) :
    ∀ l ∈ potLevels participants, 0 < l := by
  intro l hl
  have hmem := (List.perm_insertionSort (fun a b : Int => a ≤ b) _).mem_iff.mp hl
  rw [List.mem_dedup] at hmem
  have hf := List.of_mem_filter hmem
  simpa using hf

/-- Every positive clamped contribution is a level. -/
theorem potLevels_mem (participants : List GPlayer) (c : Int) (hc : 0 < c)
    (hmem : c ∈ participants.map (fun p => max 0 p.hand_contribution)) :
    c ∈ potLevels participants := by
  apply (List.perm_insertionSort (fun a b : Int => a ≤ b) _).mem_iff.mpr
  rw [List.mem_dedup]
  exact List.mem_filter.mpr ⟨hmem, by simpa using hc⟩

/-- Every level is some participant's clamped contribution. -/
theorem potLevels_exists (participants : List GPlayer) :
    ∀ l ∈ potLevels participants, ∃ p ∈ participants, max 0 p.hand_contribution = l := by
  intro l hl
  have hmem := (List.perm_insertionSort (fun a b : Int => a ≤ b) _).mem_iff.mp hl
  rw [List.mem_dedup] at hmem
  exact List.mem_map.mp (List.mem_of_mem_filter hmem)

/-- With unique ids, `find?` by id returns the member itself. -/
theorem find?_pid_unique (l : List GPlayer)
    (hnodup : (l.map (fun p => p.player_id)).Nodup) (p q : GPlayer) (hp : p ∈ l)
    (hfind : l.find? (fun r => decide (r.player_id = p.player_id)) = some q) : q = p := by
  have hq : q ∈ l := List.mem_of_find?_eq_some hfind
  have hprop := List.find?_some hfind
  have hqid : q.player_id = p.player_id := by simpa using hprop
  exact List.inj_on_of_nodup_map hnodup hq hp hqid

/-- With unique ids, the contributions dict read back at a member's id is that
member's clamped contribution. -/
theorem contribOf_eq (participants : List GPlayer)
    (hnodup : (participants.map (fun p => p.player_id)).Nodup)
    (p : GPlayer) (hp : p ∈ participants) :
    contribOf participants p.player_id = max 0 p.hand_contribution := by
  unfold contribOf
  cases hfind : participants.find? (fun r => decide (r.player_id = p.player_id)) with
  | none =>
      exfalso
      have hnone := List.find?_eq_none.mp hfind p hp
      simp at hnone
  | some q =>
      have hq := find?_pid_unique participants hnodup p q hp hfind
      show max 0 q.hand_contribution = max 0 p.hand_contribution
      rw [hq]

/-- Updating the payout of one present id adds exactly that amount to the total. -/
theorem sumPayouts_update (participants : List GPlayer) :
    ∀ (pay : String → Int) (w : String) (a : Int),
      (participants.map (fun p => p.player_id)).Nodup →
      w ∈ participants.map (fun p => p.player_id) →
      sumPayouts participants (fun s => if s = w then pay s + a else pay s)
        = sumPayouts participants pay + a := by
  induction participants with
  | nil => intro pay w a _ hw; exact absurd hw (List.not_mem_nil w)
  | cons p rest ih =>
      intro pay w a hnodup hw
      simp only [List.map_cons, List.nodup_cons] at hnodup
      obtain ⟨hpid_notin, hnodup'⟩ := hnodup
      simp only [sumPayouts, List.map_cons, List.sum_cons]
      rcases List.mem_cons.mp hw with heq | hw'
      · rw [if_pos heq.symm]
        have hrest : rest.map (fun r =>
            if r.player_id = w then pay r.player_id + a else pay r.player_id)
            = rest.map (fun r => pay r.player_id) := by
          apply List.map_congr_left
          intro r hr
          have hne : ¬ r.player_id = w := fun hcontra =>
            hpid_notin (List.mem_map.mpr ⟨r, hr, hcontra.trans heq⟩)
          rw [if_neg hne]
        rw [hrest]
        ring
      · have hne : ¬ p.player_id = w := fun hcontra => hpid_notin (hcontra ▸ hw')
        rw [if_neg hne]
        have hih := ih pay w a hnodup' hw'
        simp only [sumPayouts] at hih
        rw [hih]
        ring

/-- Distributing a tranche adds `split·n + min(n, max 0 rem)` to the payout total. -/
theorem distributeTranche_sum (participants : List GPlayer)
    (hnodup : (participants.map (fun p => p.player_id)).Nodup) :
    ∀ (ws : List GPlayer) (split rem : Int) (pay : String → Int),
      (∀ w ∈ ws, w.player_id ∈ participants.map (fun p => p.player_id)) →
      sumPayouts participants (distributeTranche ws split rem pay)
        = sumPayouts participants pay + split * (ws.length : Int)
            + min (ws.length : Int) (max 0 rem) := by
  intro ws
  induction ws with
  | nil =>
      intro split rem pay _
      simp only [distributeTranche, List.length_nil, Nat.cast_zero, mul_zero]
      omega
  | cons w rest ih =>
      intro split rem pay hsub
      simp only [distributeTranche]
      rw [ih split (rem - 1) _ (fun x hx => hsub x (List.mem_cons_of_mem w hx))]
      rw [sumPayouts_update participants pay w.player_id
        (split + if 0 < rem then 1 else 0) hnodup (hsub w (List.mem_cons_self _ _))]
      have hlen : ((w :: rest).length : Int) = (rest.length : Int) + 1 := by
        push_cast [List.length_cons]
        ring
      rw [hlen]
      have hlen0 : (0 : Int) ≤ (rest.length : Int) := Int.natCast_nonneg _
      have hmin : min ((rest.length : Int)) (max 0 (rem - 1))
          + (if 0 < rem then (1 : Int) else 0)
          = min ((rest.length : Int) + 1) (max 0 rem) := by
        by_cases h : 0 < rem
        · rw [if_pos h]; omega
        · rw [if_neg h]; omega
      linarith [hmin]

/-- Distributing a non-negative split keeps all payouts non-negative. -/
theorem distributeTranche_nonneg :
    ∀ (ws : List GPlayer) (split rem : Int) (pay : String → Int),
      0 ≤ split → (∀ s, 0 ≤ pay s) → ∀ s, 0 ≤ distributeTranche ws split rem pay s := by
  intro ws
  induction ws with
  | nil => intro split rem pay _ hpay s; exact hpay s
  | cons w rest ih =>
      intro split rem pay hsplit hpay s
      simp only [distributeTranche]
      apply ih split (rem - 1) _ hsplit
      intro t
      by_cases h : t = w.player_id
      · rw [if_pos h]
        have ht := hpay t
        by_cases hr : 0 < rem
        · rw [if_pos hr]; omega
        · rw [if_neg hr]; omega
      · rw [if_neg h]; exact hpay t

/-- Only listed winners' payouts change. -/
theorem distributeTranche_change :
    ∀ (ws : List GPlayer) (split rem : Int) (pay : String → Int) (s : String),
      distributeTranche ws split rem pay s ≠ pay s → ∃ w ∈ ws, w.player_id = s := by
  intro ws
  induction ws with
  | nil => intro split rem pay s h; exact absurd rfl h
  | cons w rest ih =>
      intro split rem pay s h
      simp only [distributeTranche] at h
      by_cases hs : s = w.player_id
      · exact ⟨w, List.mem_cons_self _ _, hs.symm⟩
      · have h2 : distributeTranche rest split (rem - 1)
            (fun t => if t = w.player_id then pay t + (split + if 0 < rem then 1 else 0)
              else pay t) s
            ≠ (fun t => if t = w.player_id then pay t + (split + if 0 < rem then 1 else 0)
              else pay t) s := by
          intro hcontra
          apply h
          rw [hcontra]
          show (if s = w.player_id then _ else pay s) = pay s
          rw [if_neg hs]
        obtain ⟨w', hw', hid⟩ := ih split (rem - 1) _ s h2
        exact ⟨w', List.mem_cons_of_mem w hw', hid⟩

/-- The winner scan only produces accumulator members and scanned players. -/
theorem layerWinners_sublist (powers : String → Option (ℕ × List ℕ)) :
    ∀ (ps : List GPlayer) (best : Option (ℕ × List ℕ)) (ws : List GPlayer),
      (layerWinners powers ps best ws).Sublist (ws ++ ps) := by
  intro ps
  induction ps with
  | nil =>
      intro best ws
      simp only [layerWinners, List.append_nil]
      exact List.Sublist.refl ws
  | cons p rest ih =>
      intro best ws
      simp only [layerWinners]
      cases hpw : powers p.player_id with
      | none =>
          exact (ih best ws).trans
            (List.Sublist.append_left (List.Sublist.cons p (List.Sublist.refl rest)) ws)
      | some pw =>
          cases best with
          | none =>
              exact (ih (some pw) [p]).trans (List.sublist_append_right ws (p :: rest))
          | some b =>
              dsimp only
              by_cases h1 : pyPowerLt b pw = true
              · rw [if_pos h1]
                exact (ih (some pw) [p]).trans (List.sublist_append_right ws (p :: rest))
              · rw [if_neg h1]
                by_cases h2 : pw = b
                · rw [if_pos h2]
                  have hsub := ih (some b) (ws ++ [p])
                  rw [List.append_assoc] at hsub
                  exact hsub
                · rw [if_neg h2]
                  exact (ih (some b) ws).trans
                    (List.Sublist.append_left
                      (List.Sublist.cons p (List.Sublist.refl rest)) ws)

/-- The winner accumulator never becomes empty again. -/
theorem layerWinners_ne_nil_acc (powers : String → Option (ℕ × List ℕ)) :
    ∀ (ps : List GPlayer) (best : Option (ℕ × List ℕ)) (ws : List GPlayer),
      ws ≠ [] → layerWinners powers ps best ws ≠ [] := by
  intro ps
  induction ps with
  | nil =>
      intro best ws h
      simpa [layerWinners] using h
  | cons p rest ih =>
      intro best ws h
      simp only [layerWinners]
      cases hpw : powers p.player_id with
      | none => exact ih best ws h
      | some pw =>
          cases best with
          | none => exact ih (some pw) [p] (List.cons_ne_nil p [])
          | some b =>
              dsimp only
              by_cases h1 : pyPowerLt b pw = true
              · rw [if_pos h1]; exact ih (some pw) [p] (List.cons_ne_nil p [])
              · rw [if_neg h1]
                by_cases h2 : pw = b
                · rw [if_pos h2]; exact ih (some b) (ws ++ [p]) (by simp)
                · rw [if_neg h2]; exact ih (some b) ws h

/-- The winner scan over a non-empty, fully-ranked pool returns winners. -/
theorem layerWinners_ne_nil (powers : String → Option (ℕ × List ℕ))
    (ps : List GPlayer) (hne : ps ≠ [])
    (hall : ∀ p ∈ ps, (powers p.player_id).isSome = true) :
    layerWinners powers ps none [] ≠ [] := by
  cases ps with
  | nil => exact absurd rfl hne
  | cons p rest =>
      have hp := hall p (List.mem_cons_self _ _)
      rw [Option.isSome_iff_exists] at hp
      obtain ⟨pw, hpw⟩ := hp
      simp only [layerWinners, hpw]
      exact layerWinners_ne_nil_acc powers rest (some pw) [p] (List.cons_ne_nil p [])

/-- A non-nil list is not `isEmpty`. -/
theorem isEmpty_false_of_ne_nil {α : Type} (l : List α) (h : l ≠ []) :
    ¬ (l.isEmpty = true) := by
  cases l with
  | nil => exact absurd rfl h
  | cons a t => simp

/-- Eligible players are ranked in the powers dict. -/
theorem eligibleAt_isSome (participants : List GPlayer)
    (powers : String → Option (ℕ × List ℕ)) (level : Int) :
    ∀ p ∈ eligibleAt participants powers level, (powers p.player_id).isSome = true := by
  intro p hp
  unfold eligibleAt at hp
  have h2 := (List.mem_filter.mp hp).2
  simp only [Bool.and_eq_true] at h2
  exact h2.2

/-- Eligible players are in hand. -/
theorem eligibleAt_in_hand (participants : List GPlayer)
    (powers : String → Option (ℕ × List ℕ)) (level : Int) :
    ∀ p ∈ eligibleAt participants powers level, p.in_hand = true := by
  intro p hp
  unfold eligibleAt at hp
  have h2 := (List.mem_filter.mp hp).2
  simp only [Bool.and_eq_true] at h2
  exact h2.1

/-- Eligible players are participants. -/
theorem eligibleAt_mem (participants : List GPlayer)
    (powers : String → Option (ℕ × List ℕ)) (level : Int) :
    ∀ p ∈ eligibleAt participants powers level, p ∈ participants := by
  intro p hp
  unfold eligibleAt layerAt at hp
  exact List.mem_of_mem_filter (List.mem_of_mem_filter hp)

/-- Winners come from the eligible pool. -/
theorem winners_mem_eligible (participants : List GPlayer)
    (powers : String → Option (ℕ × List ℕ)) (level : Int) :
    ∀ w ∈ layerWinners powers (eligibleAt participants powers level) none [],
      w ∈ eligibleAt participants powers level := by
  intro w hw
  have hsub := layerWinners_sublist powers (eligibleAt participants powers level) none []
  simp only [List.nil_append] at hsub
  exact hsub.subset hw

/-- When every level of the list has at least one eligible contributor, the loop pays
out exactly the tranche total. -/
theorem sidePotLoop_sum (participants : List GPlayer)
    (powers : String → Option (ℕ × List ℕ))
    (hnodup : (participants.map (fun p => p.player_id)).Nodup) :
    ∀ (ls : List Int) (prev : Int) (pay : String → Int),
      ls.Pairwise (· < ·) → (∀ l ∈ ls, prev < l) →
      (∀ l ∈ ls, ∃ p ∈ participants, max 0 p.hand_contribution = l) →
      (∀ l ∈ ls, eligibleAt participants powers l ≠ []) →
      sumPayouts participants (sidePotLoop participants powers ls prev pay)
        = sumPayouts participants pay + teleTotal participants ls prev := by
  intro ls
  induction ls with
  | nil =>
      intro prev pay _ _ _ _
      simp [sidePotLoop, teleTotal]
  | cons level rest ih =>
      intro prev pay hchain hgt hmem helig
      have hlt : prev < level := hgt level (List.mem_cons_self _ _)
      have hrest_gt : ∀ x ∈ rest, level < x := fun x hx =>
        (List.pairwise_cons.mp hchain).1 x hx
      have hchain' := (List.pairwise_cons.mp hchain).2
      obtain ⟨p0, hp0, hp0c⟩ := hmem level (List.mem_cons_self _ _)
      have hp0layer : p0 ∈ layerAt participants level := by
        unfold layerAt
        refine List.mem_filter.mpr ⟨hp0, ?_⟩
        simp [contribOf_eq participants hnodup p0 hp0, hp0c]
      have hlayer_ne : layerAt participants level ≠ [] := List.ne_nil_of_mem hp0layer
      have hlen_pos : 0 < (layerAt participants level).length := List.length_pos.mpr hlayer_ne
      have htr_pos : 0 < (level - prev) * ((layerAt participants level).length : Int) :=
        mul_pos (by omega) (by exact_mod_cast hlen_pos)
      have helig_ne := helig level (List.mem_cons_self _ _)
      have hwin_ne : layerWinners powers (eligibleAt participants powers level) none [] ≠ [] :=
        layerWinners_ne_nil powers _ helig_ne (eligibleAt_isSome participants powers level)
      have hwin_posZ : (0 : Int)
          < ((layerWinners powers (eligibleAt participants powers level) none []).length :
              Int) := by
        exact_mod_cast List.length_pos.mpr hwin_ne
      have hsub : ∀ w ∈ layerWinners powers (eligibleAt participants powers level) none [],
          w.player_id ∈ participants.map (fun p => p.player_id) := by
        intro w hw
        exact List.mem_map.mpr
          ⟨w, eligibleAt_mem participants powers level w
              (winners_mem_eligible participants powers level w hw), rfl⟩
      simp only [sidePotLoop, teleTotal]
      rw [if_neg (isEmpty_false_of_ne_nil _ hlayer_ne)]
      rw [if_neg (not_le.mpr htr_pos)]
      rw [if_neg (isEmpty_false_of_ne_nil _ helig_ne)]
      rw [ih level _ hchain' hrest_gt (fun l hl => hmem l (List.mem_cons_of_mem _ hl))
        (fun l hl => helig l (List.mem_cons_of_mem _ hl))]
      rw [distributeTranche_sum participants hnodup _ _ _ _ hsub]
      set n : Int :=
        ((layerWinners powers (eligibleAt participants powers level) none []).length : Int)
        with hn
      set tranche : Int := (level - prev) * ((layerAt participants level).length : Int)
        with htr
      have hrem0 : 0 ≤ tranche % n := Int.emod_nonneg _ (ne_of_gt hwin_posZ)
      have hremlt : tranche % n < n := Int.emod_lt_of_pos _ hwin_posZ
      have hdm := Int.ediv_add_emod tranche n
      have hmin : min n (max 0 (tranche % n)) = tranche % n := by omega
      rw [hmin]
      linarith [hdm, mul_comm (tranche / n) n]

/-- Without eligibility assumptions, the loop never pays out more than the tranche
total (a level with no eligible contributor silently drops its chips). -/
theorem sidePotLoop_le (participants : List GPlayer)
    (powers : String → Option (ℕ × List ℕ))
    (hnodup : (participants.map (fun p => p.player_id)).Nodup) :
    ∀ (ls : List Int) (prev : Int) (pay : String → Int),
      ls.Pairwise (· < ·) → (∀ l ∈ ls, prev < l) →
      sumPayouts participants (sidePotLoop participants powers ls prev pay)
        ≤ sumPayouts participants pay + teleTotal participants ls prev := by
  intro ls
  induction ls with
  | nil =>
      intro prev pay _ _
      simp [sidePotLoop, teleTotal]
  | cons level rest ih =>
      intro prev pay hchain hgt
      have hlt : prev < level := hgt level (List.mem_cons_self _ _)
      have hrest_gt : ∀ x ∈ rest, level < x := fun x hx =>
        (List.pairwise_cons.mp hchain).1 x hx
      have hchain' := (List.pairwise_cons.mp hchain).2
      have htr0 : 0 ≤ (level - prev) * ((layerAt participants level).length : Int) :=
        mul_nonneg (by omega) (Int.natCast_nonneg _)
      simp only [sidePotLoop, teleTotal]
      by_cases h1 : (layerAt participants level).isEmpty = true
      · rw [if_pos h1]
        have hih := ih level pay hchain' hrest_gt
        linarith [hih, htr0]
      · rw [if_neg h1]
        by_cases h2 : (level - prev) * ((layerAt participants level).length : Int) ≤ 0
        · rw [if_pos h2]
          have hih := ih level pay hchain' hrest_gt
          linarith [hih, htr0]
        · rw [if_neg h2]
          by_cases h3 : (eligibleAt participants powers level).isEmpty = true
          · rw [if_pos h3]
            have hih := ih level pay hchain' hrest_gt
            linarith [hih, htr0]
          · rw [if_neg h3]
            have htr_pos : 0 < (level - prev) * ((layerAt participants level).length : Int) :=
              not_le.mp h2
            have helig_ne : eligibleAt participants powers level ≠ [] := by
              intro hcontra
              exact h3 (by rw [hcontra]; rfl)
            have hwin_ne :
                layerWinners powers (eligibleAt participants powers level) none [] ≠ [] :=
              layerWinners_ne_nil powers _ helig_ne
                (eligibleAt_isSome participants powers level)
            have hwin_posZ : (0 : Int)
                < ((layerWinners powers (eligibleAt participants powers level) none
                    []).length : Int) := by
              exact_mod_cast List.length_pos.mpr hwin_ne
            have hsub : ∀ w ∈ layerWinners powers (eligibleAt participants powers level)
                none [], w.player_id ∈ participants.map (fun p => p.player_id) := by
              intro w hw
              exact List.mem_map.mpr
                ⟨w, eligibleAt_mem participants powers level w
                    (winners_mem_eligible participants powers level w hw), rfl⟩
            set n : Int :=
              ((layerWinners powers (eligibleAt participants powers level) none
                []).length : Int) with hn
            set tranche : Int :=
              (level - prev) * ((layerAt participants level).length : Int) with htr
            have hloop := ih level
              (distributeTranche
                (layerWinners powers (eligibleAt participants powers level) none [])
                (tranche / n) (tranche % n) pay) hchain' hrest_gt
            have hdistr := distributeTranche_sum participants hnodup
              (layerWinners powers (eligibleAt participants powers level) none [])
              (tranche / n) (tranche % n) pay hsub
            have hrem0 : 0 ≤ tranche % n := Int.emod_nonneg _ (ne_of_gt hwin_posZ)
            have hremlt : tranche % n < n := Int.emod_lt_of_pos _ hwin_posZ
            have hmin : min n (max 0 (tranche % n)) = tranche % n := by omega
            rw [hmin] at hdistr
            have hdm := Int.ediv_add_emod tranche n
            linarith [hloop, hdistr, hdm, mul_comm (tranche / n) n]

/-- Payouts are never negative. -/
theorem sidePotLoop_nonneg (participants : List GPlayer)
    (powers : String → Option (ℕ × List ℕ)) :
    ∀ (ls : List Int) (prev : Int) (pay : String → Int),
      (∀ s, 0 ≤ pay s) → ∀ s, 0 ≤ sidePotLoop participants powers ls prev pay s := by
  intro ls
  induction ls with
  | nil => intro prev pay hpay s; exact hpay s
  | cons level rest ih =>
      intro prev pay hpay s
      simp only [sidePotLoop]
      by_cases h1 : (layerAt participants level).isEmpty = true
      · rw [if_pos h1]; exact ih level pay hpay s
      · rw [if_neg h1]
        by_cases h2 : (level - prev) * ((layerAt participants level).length : Int) ≤ 0
        · rw [if_pos h2]; exact ih level pay hpay s
        · rw [if_neg h2]
          by_cases h3 : (eligibleAt participants powers level).isEmpty = true
          · rw [if_pos h3]; exact ih level pay hpay s
          · rw [if_neg h3]
            refine ih level _ ?_ s
            refine distributeTranche_nonneg _ _ _ _ ?_ hpay
            exact Int.ediv_nonneg (le_of_lt (not_le.mp h2)) (Int.natCast_nonneg _)

/-- Whoever ends up with a payout different from their start value was an eligible
in-hand ranked contributor at some level. -/
theorem sidePotLoop_change (participants : List GPlayer)
    (powers : String → Option (ℕ × List ℕ)) :
    ∀ (ls : List Int) (prev : Int) (pay : String → Int) (s : String),
      sidePotLoop participants powers ls prev pay s ≠ pay s →
      ∃ p ∈ participants, p.player_id = s ∧ p.in_hand = true ∧
        (powers s).isSome = true := by
  intro ls
  induction ls with
  | nil => intro prev pay s h; exact absurd rfl h
  | cons level rest ih =>
      intro prev pay s h
      simp only [sidePotLoop] at h
      by_cases h1 : (layerAt participants level).isEmpty = true
      · rw [if_pos h1] at h; exact ih level pay s h
      · rw [if_neg h1] at h
        by_cases h2 : (level - prev) * ((layerAt participants level).length : Int) ≤ 0
        · rw [if_pos h2] at h; exact ih level pay s h
        · rw [if_neg h2] at h
          by_cases h3 : (eligibleAt participants powers level).isEmpty = true
          · rw [if_pos h3] at h; exact ih level pay s h
          · rw [if_neg h3] at h
            by_cases hd : distributeTranche
                (layerWinners powers (eligibleAt participants powers level) none [])
                ((level - prev) * ((layerAt participants level).length : Int)
                  / ((layerWinners powers (eligibleAt participants powers level) none
                      []).length : Int))
                ((level - prev) * ((layerAt participants level).length : Int)
                  % ((layerWinners powers (eligibleAt participants powers level) none
                      []).length : Int)) pay s = pay s
            · have h' : sidePotLoop participants powers rest level
                  (distributeTranche
                    (layerWinners powers (eligibleAt participants powers level) none [])
                    ((level - prev) * ((layerAt participants level).length : Int)
                      / ((layerWinners powers (eligibleAt participants powers level) none
                          []).length : Int))
                    ((level - prev) * ((layerAt participants level).length : Int)
                      % ((layerWinners powers (eligibleAt participants powers level) none
                          []).length : Int)) pay) s
                  ≠ (distributeTranche
                    (layerWinners powers (eligibleAt participants powers level) none [])
                    ((level - prev) * ((layerAt participants level).length : Int)
                      / ((layerWinners powers (eligibleAt participants powers level) none
                          []).length : Int))
                    ((level - prev) * ((layerAt participants level).length : Int)
                      % ((layerWinners powers (eligibleAt participants powers level) none
                          []).length : Int)) pay) s := by
                rw [hd]
                exact h
              exact ih level _ s h'
            · obtain ⟨w, hw, hid⟩ := distributeTranche_change _ _ _ _ _ hd
              have hw2 := winners_mem_eligible participants powers level w hw
              refine ⟨w, eligibleAt_mem participants powers level w hw2, hid,
                eligibleAt_in_hand participants powers level w hw2, ?_⟩
              rw [← hid]
              exact eligibleAt_isSome participants powers level w hw2

/-- Under unique ids and non-negative contributions, the tranche total over the
actual level list is exactly the pot. -/
theorem teleTotal_potLevels (participants : List GPlayer)
    (hnodup : (participants.map (fun p => p.player_id)).Nodup)
    (hnonneg : ∀ p ∈ participants, 0 ≤ p.hand_contribution) :
    teleTotal participants (potLevels participants) 0 = totalContrib participants := by
  rw [teleTotal_eq]
  unfold totalContrib
  congr 1
  apply List.map_congr_left
  intro p hp
  rw [contribOf_eq participants hnodup p hp]
  have hc := hnonneg p hp
  rcases lt_or_le 0 p.hand_contribution with hpos | hle
  · rw [teleOne_eval (potLevels participants) 0 (max 0 p.hand_contribution)
      (potLevels_sorted participants) (potLevels_pos participants)
      (Or.inr (potLevels_mem participants _ (by omega)
        (List.mem_map.mpr ⟨p, hp, rfl⟩)))]
    omega
  · rw [teleOne_eval (potLevels participants) 0 (max 0 p.hand_contribution)
      (potLevels_sorted participants) (potLevels_pos participants) (Or.inl (by omega))]
    omega

/-- C1 counterexample: with an in-hand player contributing 5 and a folded player
contributing 10, the level 5 has an eligible in-hand winner, yet the payouts sum to
10 while the total pot is 15 — the folded player's uncontested top tranche is
silently dropped, so "at least one eligible level" does not give exact conservation. -/
theorem side_pots_drop_tranche_cex :
    (∃ l ∈ potLevels [sideA, sideB], eligibleAt [sideA, sideB] powersAB l ≠ []) ∧
      sumPayouts [sideA, sideB] (computeSidePots [sideA, sideB] powersAB) = 10 ∧
      totalContrib [sideA, sideB] = 15 ∧ (10 : Int) ≠ 15 := by
  refine ⟨by decide, by decide, by decide, by decide⟩

/-- C1 (amended): the sum of all side-pot payouts equals the total pot exactly
whenever EVERY contribution level has an eligible in-hand ranked winner (with unique
player ids and non-negative contributions, as the engine guarantees). -/
theorem side_pots_sum_exact (participants : List GPlayer)
    (powers : String → Option (ℕ × List ℕ))
    (hnodup : (participants.map (fun p => p.player_id)).Nodup)
    (hnonneg : ∀ p ∈ participants, 0 ≤ p.hand_contribution)
    (helig : ∀ l ∈ potLevels participants, eligibleAt participants powers l ≠ []) :
    sumPayouts participants (computeSidePots participants powers)
      = totalContrib participants := by
  unfold computeSidePots
  rw [sidePotLoop_sum participants powers hnodup (potLevels participants) 0 (fun _ => 0)
    (potLevels_sorted participants) (potLevels_pos participants)
    (potLevels_exists participants) helig]
  have hzero : sumPayouts participants (fun _ => 0) = 0 := by
    simp [sumPayouts]
  rw [hzero, zero_add, teleTotal_potLevels participants hnodup hnonneg]

/-- Witness for C1's amended theorem at the spec's all-in example: contributions
50/100/150, all three ranked at showdown, payouts 150/100/50 summing to the pot. -/
theorem side_pots_sum_exact_witness :
    sumPayouts [allinA, allinB, allinC]
        (computeSidePots [allinA, allinB, allinC] powersABC)
      = totalContrib [allinA, allinB, allinC] :=
  side_pots_sum_exact [allinA, allinB, allinC] powersABC (by decide) (by decide)
    (by decide)

/-- C10: side-pot payouts are non-negative for every player, positive only for
in-hand players present in the powers map, and their sum never exceeds the total of
the hand contributions (dropped tranches lose chips but chips are never created). -/
theorem side_pots_bounded (participants : List GPlayer)
    (powers : String → Option (ℕ × List ℕ))
    (hnodup : (participants.map (fun p => p.player_id)).Nodup)
    (hnonneg : ∀ p ∈ participants, 0 ≤ p.hand_contribution) :
    (∀ s, 0 ≤ computeSidePots participants powers s) ∧
      (∀ s, 0 < computeSidePots participants powers s →
        ∃ p ∈ participants, p.player_id = s ∧ p.in_hand = true ∧
          (powers s).isSome = true) ∧
      sumPayouts participants (computeSidePots participants powers)
        ≤ totalContrib participants := by
  refine ⟨?_, ?_, ?_⟩
  · intro s
    exact sidePotLoop_nonneg participants powers (potLevels participants) 0 (fun _ => 0)
      (fun _ => le_refl 0) s
  · intro s hpos
    have hne : computeSidePots participants powers s ≠ (fun _ => (0 : Int)) s := by
      intro hcontra
      rw [show computeSidePots participants powers s = 0 from hcontra] at hpos
      omega
    exact sidePotLoop_change participants powers (potLevels participants) 0 (fun _ => 0)
      s hne
  · have hle := sidePotLoop_le participants powers hnodup (potLevels participants) 0
      (fun _ => 0) (potLevels_sorted participants) (potLevels_pos participants)
    have hzero : sumPayouts participants (fun _ => (0 : Int)) = 0 := by
      simp [sumPayouts]
    have htt := teleTotal_potLevels participants hnodup hnonneg
    unfold computeSidePots
    linarith [hle, hzero, htt]

/-- Witness for C10 at a concrete input: the fold-drop scenario still pays
non-negative amounts and never more than the pot. -/
theorem side_pots_bounded_witness :
    0 ≤ computeSidePots [sideA, sideB] powersAB "B" ∧
      sumPayouts [sideA, sideB] (computeSidePots [sideA, sideB] powersAB)
        ≤ totalContrib [sideA, sideB] := by
  have h := side_pots_bounded [sideA, sideB] powersAB (by decide) (by decide)
  exact ⟨h.1 "B", h.2.2⟩

end DamageGame
